import Mathlib

/-!
Verification of the TempCalc correction engine (`src/core/reactor.py`,
`src/core/pc.py`) against its natural-language specification.

The numeric code is embedded over `ℚ` (exact arithmetic shadow of the float
code); the heat-transfer coefficient `exp(-DISTANCE/CHARACTERISTIC_LENGTH)`
is an environment-supplied configuration constant and therefore appears as a
parameter of every definition that uses the influence matrix.  The one
construction that mentions `exp` itself is embedded over `ℝ`.
-/

namespace TempCalc

/-- A 3-vector written out by components (the embedding of a numpy length-3
array literal). -/
def vec3 {α : Type} (a b c : α) : Fin 3 → α
  | 0 => a
  | 1 => b
  | 2 => c

/-- Banker's rounding (round-half-to-even): the semantics of Python `round`
and `numpy.round` used throughout the source. -/
def bround (q : ℚ) : ℤ :=
  if q - ⌊q⌋ = 1/2 then (if ⌊q⌋ % 2 = 0 then ⌊q⌋ else ⌊q⌋ + 1) else round q

/-- `np.round(x * 2) / 2` (`reactor.py` line 228): quantization of a
correction component to the nearest 0.5 unit, ties to even. -/
def quantize (x : ℚ) : ℚ := (bround (x * 2) : ℚ) / 2

/-- `custom_round` (`reactor.py` lines 98-108).  The source returns display
strings; string rendering is abstracted to the value it denotes: `none` stands
for the label "no correction needed" (не корректировать) and `some q` for the
decimal rendering of `q` (both source branches render exactly the rational
carried here, as an integer or with one decimal). -/
def custom_round (value : ℚ) : Option ℚ :=
  if |value| < 1/4 then none
  else
    let integer_part : ℤ := bround value
    let half_rounded : ℚ := (bround (value * 2) : ℚ) / 2
    if |value - (integer_part : ℚ)| < |value - half_rounded| then some (integer_part : ℚ)
    else some half_rounded

/-- `ThermalReactor.get_influence_matrix` (`reactor.py` 136-142; the identical
array literal appears in `pc.py` 57-61), as a function of the heat-transfer
coefficient `c`. -/
def get_influence_matrix {K : Type} [Field K] (c : K) : Fin 3 → Fin 3 → K :=
  vec3 (vec3 1 1 (c^5)) (vec3 c 1 c) (vec3 (c^5) 1 1)

/-- `np.dot(M, v)` for a 3×3 matrix and a 3-vector. -/
def mulVec3 {K : Type} [Field K] (M : Fin 3 → Fin 3 → K) (v : Fin 3 → K) : Fin 3 → K :=
  fun i => M i 0 * v 0 + M i 1 * v 1 + M i 2 * v 2

/-- 3×3 determinant, cofactor expansion along the first row. -/
def det3 {K : Type} [Field K] (M : Fin 3 → Fin 3 → K) : K :=
  M 0 0 * (M 1 1 * M 2 2 - M 1 2 * M 2 1)
  - M 0 1 * (M 1 0 * M 2 2 - M 1 2 * M 2 0)
  + M 0 2 * (M 1 0 * M 2 1 - M 1 1 * M 2 0)

/-- Replace column `j` of `M` by `b`. -/
def replace_col {K : Type} [Field K] (M : Fin 3 → Fin 3 → K) (j : Fin 3) (b : Fin 3 → K) :
    Fin 3 → Fin 3 → K :=
  fun i k => if k = j then b i else M i k

/-- `np.linalg.solve` on a 3×3 system: `none` when the matrix is singular
(numpy raises `LinAlgError` there), otherwise the unique solution, computed by
Cramer's rule. -/
def solve3 {K : Type} [Field K] [DecidableEq K] (M : Fin 3 → Fin 3 → K) (b : Fin 3 → K) :
    Option (Fin 3 → K) :=
  if det3 M = 0 then none else some (fun j => det3 (replace_col M j b) / det3 M)

/-- `np.arange(start, stop, step)` for positive rational step:
`⌈(stop - start)/step⌉` points starting at `start`. -/
def arange (start stop step : ℚ) : List ℚ :=
  (List.range (⌈(stop - start) / step⌉).toNat).map (fun k : ℕ => start + (k : ℚ) * step)

/-- `steps[np.abs(steps - current).argmin()]`: the element of `steps` nearest
to `current`, the first such on ties (`argmin` returns the first minimal
index).  `numpy` would raise on an empty array; that case is unreachable from
the call sites (a band's step grid is never empty) and returns the junk
value 0 here. -/
def nearest_step (current : ℚ) : List ℚ → ℚ
  | [] => 0
  | s :: rest => rest.foldl (fun best x => if |x - current| < |best - current| then x else best) s

/-- The desired-target resolution applied to each of the three zones in
`ThermalReactor.calculate_corrections` (`reactor.py` 186-221): clamp to the
band `[target + min(range), target + max(range)]` when the current reading
lies outside it, otherwise snap to the nearest point of
`np.arange(lower, upper + 0.5, 0.5)`. -/
def resolve_zone_target (current target : ℚ) (p : ℚ × ℚ) : ℚ :=
  let upper := target + max p.1 p.2
  let lower := target + min p.1 p.2
  if upper < current then upper
  else if current < lower then lower
  else nearest_step current (arange lower (upper + 1/2) (1/2))

/-- `ThermalReactor.calculate_corrections` (`reactor.py` 178-235), the ranged
branch (Strategy B): resolve per-zone desired targets, solve
`influence_matrix · corrections = targets - current_temps`, quantize each
component to the 0.5 grid.  `none` models the linear-solve failure. -/
def calculate_corrections (coef : ℚ) (initial_temps TARGET_TEMPS : Fin 3 → ℚ)
    (user_ranges : Fin 3 → ℚ × ℚ) : Option (Fin 3 → ℚ) :=
  let targets : Fin 3 → ℚ := fun i =>
    resolve_zone_target (initial_temps i) (TARGET_TEMPS i) (user_ranges i)
  (solve3 (get_influence_matrix coef) (fun i => targets i - initial_temps i)).map
    (fun corrections => fun i => quantize (corrections i))

/-- `ThermalReactor.calculate_temperature_changes` (`reactor.py` 237-247,
`pc.py` 56-63): `final_temps = initial_temps + influence_matrix · corrections`. -/
def calculate_temperature_changes (coef : ℚ) (initial_temps corrections : Fin 3 → ℚ) :
    Fin 3 → ℚ :=
  fun i => initial_temps i + mulVec3 (get_influence_matrix coef) corrections i

/-- `ThermalReactor.objective_function` from `reactor.py` 249-251:
`np.sum((final_temps - TARGET_TEMPS) ** 2)` — a bare sum of squares. -/
def objective_function (coef : ℚ) (initial_temps TARGET_TEMPS corrections : Fin 3 → ℚ) : ℚ :=
  ∑ i : Fin 3,
    (calculate_temperature_changes coef initial_temps corrections i - TARGET_TEMPS i)^2

/-- `ThermalReactor.objective_function` from `pc.py` 65-71: squared deviation
plus `1000 * np.sum(np.maximum(np.abs(final - target) - MAX_DEVIATION, 0))`. -/
def objective_function_pc (coef MAX_DEVIATION : ℚ)
    (initial_temps TARGET_TEMPS corrections : Fin 3 → ℚ) : ℚ :=
  (∑ i : Fin 3,
    (calculate_temperature_changes coef initial_temps corrections i - TARGET_TEMPS i)^2)
  + 1000 * ∑ i : Fin 3,
      max (|calculate_temperature_changes coef initial_temps corrections i - TARGET_TEMPS i|
        - MAX_DEVIATION) 0

/-- The spec's `final_temperatures = current + InfluenceMatrix · corrections`
(spec §4.1), written as the spec writes it. -/
def spec_final_temp (coef : ℚ) (current corrections : Fin 3 → ℚ) (i : Fin 3) : ℚ :=
  current i + ∑ j : Fin 3, get_influence_matrix coef i j * corrections j

/-- The Strategy A objective exactly as the spec states it (spec §4.4):
`f = Σ (final_i − target_i)² + 1000 · Σ max(|final_i − target_i| − max_deviation, 0)`.
Stated from the spec's words, for comparison against the source objectives. -/
def spec_objective (coef max_deviation : ℚ) (current target corrections : Fin 3 → ℚ) : ℚ :=
  (∑ i : Fin 3, (spec_final_temp coef current corrections i - target i)^2)
  + 1000 * ∑ i : Fin 3,
      max (|spec_final_temp coef current corrections i - target i| - max_deviation) 0

/-- What `ThermalReactor.optimize_temperatures` (`reactor.py` 253-278) does:
either it hands an objective and the zero initial guess to
`scipy.optimize.minimize` (Strategy A — the iterative solver itself is outside
the embedding; the constructor records exactly what is passed to it), or it
runs the deterministic ranged solve (Strategy B) and returns its corrections
paired with the predicted final temperatures. -/
inductive StrategyOutcome where
  | strategyA (objective : (Fin 3 → ℚ) → ℚ) (initial_guess : Fin 3 → ℚ) : StrategyOutcome
  | strategyB (result : Option ((Fin 3 → ℚ) × (Fin 3 → ℚ))) : StrategyOutcome

/-- Whether the outcome is a Strategy A (unconstrained optimization) run. -/
def StrategyOutcome.isA : StrategyOutcome → Bool
  | .strategyA _ _ => true
  | .strategyB _ => false

/-- Whether the outcome is a Strategy B (range-aware deterministic) run. -/
def StrategyOutcome.isB : StrategyOutcome → Bool
  | .strategyA _ _ => false
  | .strategyB _ => true

/-- `ThermalReactor.optimize_temperatures` (`reactor.py` 253-278): the
`if self.user_ranges:` dispatch between the two strategies. -/
def optimize_temperatures (coef : ℚ) (initial_temps TARGET_TEMPS : Fin 3 → ℚ)
    (user_ranges : Option (Fin 3 → ℚ × ℚ)) : StrategyOutcome :=
  match user_ranges with
  | some ranges =>
      .strategyB ((calculate_corrections coef initial_temps TARGET_TEMPS ranges).map
        (fun corrections =>
          (corrections, calculate_temperature_changes coef initial_temps corrections)))
  | none => .strategyA (objective_function coef initial_temps TARGET_TEMPS) (fun _ => 0)

/-- `DEFAULT_RANGES` (`reactor.py` line 19): the fallback value of the
`DEFAULT_RANGES` environment variable, the string `'2 0 1 -1 0 -1'`, grouped
per zone (B, C, D) as in `handle_temperatures` lines 328-332. -/
def DEFAULT_RANGES : Fin 3 → ℚ × ℚ := vec3 (2, 0) (1, -1) (0, -1)

/-- The range-resolution priority chain of `handle_temperatures`
(`reactor.py` 315-336): reactor-specific override, else user-global override,
else the configured defaults.  Dict lookups are modelled as `Option`-valued
maps (an absent key and an empty stored dict both read as `none`). -/
def resolve_ranges (user_id : ℕ) (reactor_id : String)
    (reactor_specific_ranges : ℕ → String → Option (Fin 3 → ℚ × ℚ))
    (user_ranges : ℕ → Option (Fin 3 → ℚ × ℚ)) : Fin 3 → ℚ × ℚ :=
  match reactor_specific_ranges user_id reactor_id with
  | some r => r
  | none =>
    match user_ranges user_id with
    | some r => r
    | none => DEFAULT_RANGES

/-- `self.heat_transfer_coef = np.exp(-DISTANCE / CHARACTERISTIC_LENGTH)`
(`reactor.py` 131-134, `pc.py` 43), as a function of the two configuration
constants. -/
noncomputable def heat_transfer_coef (distance characteristic_length : ℝ) : ℝ :=
  Real.exp (-(distance / characteristic_length))

/-- The index permutation exchanging the two edge zones B and D. -/
def swap02 : Fin 3 → Fin 3 := vec3 2 1 0

/-- Sum of the absolute values of row `i` of the influence matrix when the
coefficient is nonnegative: the factor by which per-component quantization
error is amplified into a zone's final temperature. -/
def rowWeight (c : ℚ) : Fin 3 → ℚ := vec3 (2 + c^5) (1 + 2*c) (2 + c^5)

/-! ### Helper lemmas -/

/-- The embedded `calculate_temperature_changes` agrees pointwise with the
spec-level `final_temperatures` formula. -/
theorem calculate_temperature_changes_eq_spec (coef : ℚ)
    (initial_temps corrections : Fin 3 → ℚ) (i : Fin 3) :
    calculate_temperature_changes coef initial_temps corrections i
      = spec_final_temp coef initial_temps corrections i := by
  simp [calculate_temperature_changes, spec_final_temp, mulVec3, Fin.sum_univ_three]

/-! ### Claim C1 -/

/-- C1, counterexample.  The claim states that every Strategy A run minimizes
`Σ (final−target)² + 1000·Σ max(|final−target|−max_deviation, 0)`.  In
`reactor.py`, `optimize_temperatures` with no working range hands
`objective_function` (lines 249-251) to the solver, and that objective is the
bare sum of squares: at `coef = 1/2`, `current = (10,10,10)`,
`target = (0,0,0)`, `corrections = 0` and `max_deviation = 1` it evaluates to
`300` while the claimed formula evaluates to `27300`. -/
theorem claim_C1_counterexample :
    optimize_temperatures (1/2) (vec3 10 10 10) (vec3 0 0 0) none
      = .strategyA (objective_function (1/2) (vec3 10 10 10) (vec3 0 0 0)) (fun _ => 0)
    ∧ objective_function (1/2) (vec3 10 10 10) (vec3 0 0 0) (fun _ => 0) = 300
    ∧ spec_objective (1/2) 1 (vec3 10 10 10) (vec3 0 0 0) (fun _ => 0) = 27300
    ∧ objective_function (1/2) (vec3 10 10 10) (vec3 0 0 0) (fun _ => 0)
        ≠ spec_objective (1/2) 1 (vec3 10 10 10) (vec3 0 0 0) (fun _ => 0) := by
  have h1 : objective_function (1/2) (vec3 10 10 10) (vec3 0 0 0) (fun _ => 0) = 300 := by
    norm_num [objective_function, calculate_temperature_changes, mulVec3,
      get_influence_matrix, vec3, Fin.sum_univ_three]
  have h2 : spec_objective (1/2) 1 (vec3 10 10 10) (vec3 0 0 0) (fun _ => 0) = 27300 := by
    norm_num [spec_objective, spec_final_temp, get_influence_matrix, vec3,
      Fin.sum_univ_three, abs_eq_max_neg]
  exact ⟨rfl, h1, h2, by rw [h1, h2]; norm_num⟩

/-- C1, amended.  The stated objective formula is exactly the objective of the
no-range module `pc.py` (lines 65-71); the Strategy A objective of
`reactor.py` (lines 249-251) is the sum of squared deviations alone, with no
penalty term. -/
theorem claim_C1 :
    ∀ (coef MAX_DEVIATION : ℚ) (initial_temps TARGET_TEMPS corrections : Fin 3 → ℚ),
    objective_function_pc coef MAX_DEVIATION initial_temps TARGET_TEMPS corrections
      = spec_objective coef MAX_DEVIATION initial_temps TARGET_TEMPS corrections
    ∧ objective_function coef initial_temps TARGET_TEMPS corrections
      = ∑ i : Fin 3, (spec_final_temp coef initial_temps corrections i - TARGET_TEMPS i)^2 := by
  intro coef MAX_DEVIATION initial_temps TARGET_TEMPS corrections
  constructor
  · simp [objective_function_pc, spec_objective, calculate_temperature_changes_eq_spec]
  · simp [objective_function, calculate_temperature_changes_eq_spec]

/-! ### Claim C2 -/

/-- C2.  `optimize_temperatures` dispatches on whether a working range is in
effect (`if self.user_ranges:`): with none it is Strategy A — the bare
quadratic objective handed to the minimizer from the zero initial guess — and
with one it is Strategy B — the deterministic ranged solve returning
corrections and predicted final temperatures; exactly one of the two happens. -/
theorem claim_C2 :
    ∀ (coef : ℚ) (initial_temps TARGET_TEMPS : Fin 3 → ℚ)
      (user_ranges : Option (Fin 3 → ℚ × ℚ)),
    (user_ranges = none →
      optimize_temperatures coef initial_temps TARGET_TEMPS user_ranges
        = .strategyA (objective_function coef initial_temps TARGET_TEMPS) (fun _ => 0))
    ∧ (∀ ranges, user_ranges = some ranges →
      optimize_temperatures coef initial_temps TARGET_TEMPS user_ranges
        = .strategyB ((calculate_corrections coef initial_temps TARGET_TEMPS ranges).map
            (fun corrections =>
              (corrections, calculate_temperature_changes coef initial_temps corrections))))
    ∧ ((optimize_temperatures coef initial_temps TARGET_TEMPS user_ranges).isA = true
        ↔ user_ranges = none)
    ∧ ((optimize_temperatures coef initial_temps TARGET_TEMPS user_ranges).isB = true
        ↔ (optimize_temperatures coef initial_temps TARGET_TEMPS user_ranges).isA = false) := by
  intro coef initial_temps TARGET_TEMPS user_ranges
  rcases user_ranges with _ | ranges <;>
    simp [optimize_temperatures, StrategyOutcome.isA, StrategyOutcome.isB]

/-- Witness for C2: with no working range in effect, the computation is the
Strategy A call on the bare quadratic objective from the zero vector. -/
theorem claim_C2_witness :
    optimize_temperatures 1 (vec3 0 0 0) (vec3 0 0 0) none
      = .strategyA (objective_function 1 (vec3 0 0 0) (vec3 0 0 0)) (fun _ => 0) :=
  (claim_C2 1 (vec3 0 0 0) (vec3 0 0 0) none).1 rfl

/-! ### Claim C8 -/

/-- C8.  Range resolution is a pure lookup with the most specific source
winning: a reactor-specific override beats the user-global override, which
beats the system default; with neither override present the configured
`DEFAULT_RANGES` are returned (no error path exists). -/
theorem claim_C8 :
    ∀ (user_id : ℕ) (reactor_id : String)
      (reactor_specific_ranges : ℕ → String → Option (Fin 3 → ℚ × ℚ))
      (user_ranges : ℕ → Option (Fin 3 → ℚ × ℚ)),
    (∀ r, reactor_specific_ranges user_id reactor_id = some r →
        resolve_ranges user_id reactor_id reactor_specific_ranges user_ranges = r)
    ∧ (reactor_specific_ranges user_id reactor_id = none →
        ∀ g, user_ranges user_id = some g →
          resolve_ranges user_id reactor_id reactor_specific_ranges user_ranges = g)
    ∧ (reactor_specific_ranges user_id reactor_id = none → user_ranges user_id = none →
        resolve_ranges user_id reactor_id reactor_specific_ranges user_ranges
          = DEFAULT_RANGES) := by
  intro user_id reactor_id reactor_specific_ranges user_ranges
  refine ⟨fun r hr => ?_, fun hn g hg => ?_, fun hn hg => ?_⟩ <;>
    simp [resolve_ranges, *]

/-- Witness for C8: with neither override present, resolution falls back to
the configured defaults without error. -/
theorem claim_C8_witness :
    resolve_ranges 7 "K-4" (fun _ _ => none) (fun _ => none) = DEFAULT_RANGES :=
  (claim_C8 7 "K-4" (fun _ _ => none) (fun _ => none)).2.2 rfl rfl

/-! ### Claim C6 -/

/-- C6.  The influence-matrix construction is the deterministic function of
`(distance, characteristic_length)` embedded by `heat_transfer_coef` and
`get_influence_matrix`; at `distance = 5`, `characteristic_length = 10` the
coefficient is `exp(-0.5)`, the two edge-corner entries both equal `coef^5`,
and that value is approximately `0.0821` (within `10⁻³`). -/
theorem claim_C6 :
    heat_transfer_coef 5 10 = Real.exp (-(1/2))
    ∧ get_influence_matrix (heat_transfer_coef 5 10) 0 2 = heat_transfer_coef 5 10 ^ 5
    ∧ get_influence_matrix (heat_transfer_coef 5 10) 2 0 = heat_transfer_coef 5 10 ^ 5
    ∧ |get_influence_matrix (heat_transfer_coef 5 10) 0 2 - 0.0821| < 1/1000 := by
  have h0 : heat_transfer_coef 5 10 = Real.exp (-(1/2)) := by
    unfold heat_transfer_coef; norm_num
  refine ⟨h0, rfl, rfl, ?_⟩
  have hpow : get_influence_matrix (heat_transfer_coef 5 10) 0 2 = Real.exp (-(5/2)) := by
    show heat_transfer_coef 5 10 ^ 5 = Real.exp (-(5/2))
    rw [h0, ← Real.exp_nat_mul]
    norm_num
  rw [hpow]
  set y : ℝ := Real.exp (5/2) with hy
  have hxy : Real.exp (-(5/2)) * y = 1 := by
    rw [hy, ← Real.exp_add]; norm_num [Real.exp_zero]
  have hy_pos : (0:ℝ) < y := Real.exp_pos _
  have hx_pos : (0:ℝ) < Real.exp (-(5/2)) := Real.exp_pos _
  have hy2 : y ^ 2 = Real.exp 1 ^ 5 := by
    have h5 : Real.exp ((5:ℕ) * (1:ℝ)) = Real.exp 1 ^ 5 := Real.exp_nat_mul 1 5
    have hyy : y * y = Real.exp 5 := by rw [hy, ← Real.exp_add]; norm_num
    rw [sq, hyy, ← h5]
    norm_num
  have he_lb := Real.exp_one_gt_d9
  have he_ub := Real.exp_one_lt_d9
  have he_pos : (0:ℝ) < Real.exp 1 := Real.exp_pos 1
  have h5_lb : (148.41:ℝ) < Real.exp 1 ^ 5 := by
    have h := pow_lt_pow_left₀ he_lb (by norm_num : (0:ℝ) ≤ 2.7182818283) (by norm_num : (5:ℕ) ≠ 0)
    nlinarith [h]
  have h5_ub : Real.exp 1 ^ 5 < (148.42:ℝ) := by
    have h := pow_lt_pow_left₀ he_ub (le_of_lt he_pos) (by norm_num : (5:ℕ) ≠ 0)
    nlinarith [h]
  have hy_lb : (12.18:ℝ) < y := by nlinarith [hy2, h5_lb, hy_pos]
  have hy_ub : y < (12.1862:ℝ) := by nlinarith [hy2, h5_ub, hy_pos]
  rw [abs_lt]
  constructor <;> nlinarith [hxy, hx_pos, hy_lb, hy_ub]

/-! ### Claim C7 -/

/-- C7, counterexample.  The claim asserts every off-diagonal coefficient of
the influence matrix lies strictly in `(0,1)`, but the entries in column 1
outside the diagonal are exactly `1`: entry `(0,1)` (and `(2,1)`) equals `1`
for every coefficient, in particular for `distance = 5`,
`characteristic_length = 10`. -/
theorem claim_C7_counterexample :
    (0 : Fin 3) ≠ (1 : Fin 3)
    ∧ get_influence_matrix (heat_transfer_coef 5 10) 0 1 = 1
    ∧ ¬(get_influence_matrix (heat_transfer_coef 5 10) 0 1 < 1) := by
  refine ⟨by decide, rfl, ?_⟩
  show ¬((1:ℝ) < 1)
  norm_num

/-- C7, amended.  For positive distance and characteristic length the matrix
has unit diagonal, is invariant under simultaneously swapping the two edge
zones in rows and columns, and its off-diagonal entries outside column 1 —
`(1,0)`, `(1,2)`, `(0,2)`, `(2,0)` — lie strictly in `(0,1)`; the off-diagonal
entries `(0,1)` and `(2,1)` are however exactly `1` (the center column), not
inside `(0,1)`. -/
theorem claim_C7 :
    ∀ (distance characteristic_length : ℝ), 0 < distance → 0 < characteristic_length →
    ∀ c, c = heat_transfer_coef distance characteristic_length →
    (∀ i, get_influence_matrix c i i = 1)
    ∧ (∀ i j, get_influence_matrix c (swap02 i) (swap02 j) = get_influence_matrix c i j)
    ∧ (0 < c ∧ c < 1)
    ∧ (get_influence_matrix c 1 0 = c ∧ get_influence_matrix c 1 2 = c
        ∧ get_influence_matrix c 0 2 = c ^ 5 ∧ get_influence_matrix c 2 0 = c ^ 5
        ∧ 0 < c ^ 5 ∧ c ^ 5 < 1)
    ∧ (get_influence_matrix c 0 1 = 1 ∧ get_influence_matrix c 2 1 = 1) := by
  intro distance characteristic_length hd hl c hc
  have hc_pos : 0 < c := by
    rw [hc]; exact Real.exp_pos _
  have hc_lt : c < 1 := by
    rw [hc]
    unfold heat_transfer_coef
    refine Real.exp_lt_one_iff.mpr ?_
    have hq : 0 < distance / characteristic_length := div_pos hd hl
    linarith
  refine ⟨?_, ?_, ⟨hc_pos, hc_lt⟩, ⟨rfl, rfl, rfl, rfl, pow_pos hc_pos 5, ?_⟩, rfl, rfl⟩
  · intro i; fin_cases i <;> rfl
  · intro i j; fin_cases i <;> fin_cases j <;> rfl
  · exact pow_lt_one₀ (le_of_lt hc_pos) hc_lt (by norm_num)

/-- Witness for C7: at `distance = 5`, `characteristic_length = 10` the
coefficient (hence every entry `c` or `c^5`) lies strictly between 0 and 1. -/
theorem claim_C7_witness :
    0 < heat_transfer_coef 5 10 ∧ heat_transfer_coef 5 10 < 1 :=
  (claim_C7 5 10 (by norm_num) (by norm_num) (heat_transfer_coef 5 10) rfl).2.2.1

/-! ### Rounding lemmas -/

/-- Banker's rounding moves a value by at most one half. -/
theorem abs_sub_bround (q : ℚ) : |q - (bround q : ℚ)| ≤ 1/2 := by
  unfold bround
  by_cases h : q - (⌊q⌋ : ℚ) = 1/2
  · rw [if_pos h]
    by_cases h2 : ⌊q⌋ % 2 = 0
    · rw [if_pos h2, h]
      norm_num [abs_eq_max_neg]
    · rw [if_neg h2]
      push_cast
      rw [show q - ((⌊q⌋ : ℚ) + 1) = (q - ⌊q⌋) - 1 by ring, h]
      norm_num [abs_eq_max_neg]
  · rw [if_neg h]
    exact abs_sub_round q

/-- Quantization to the half-unit grid moves a value by at most one quarter. -/
theorem abs_quantize_sub (x : ℚ) : |quantize x - x| ≤ 1/4 := by
  unfold quantize
  have h := abs_sub_bround (x * 2)
  rw [show (bround (x * 2) : ℚ) / 2 - x = -((x * 2 - bround (x * 2)) / 2) by ring, abs_neg,
    abs_div, abs_of_nonneg (by norm_num : (0:ℚ) ≤ 2)]
  linarith

/-- Banker's rounding at an even-integer-plus-half point rounds down to the
even integer. -/
theorem bround_two_mul_add_half (k : ℤ) : bround (2 * (k:ℚ) + 1/2) = 2 * k := by
  have hfl : ⌊2 * (k:ℚ) + 1/2⌋ = 2 * k := by
    rw [show 2 * (k:ℚ) + 1/2 = 1/2 + ((2 * k : ℤ) : ℚ) by push_cast; ring,
      Int.floor_add_int]
    norm_num
  unfold bround
  rw [hfl, if_pos (by push_cast; ring), if_pos (Int.mul_emod_right 2 k)]

/-- Banker's rounding at an even-integer-minus-half point rounds up to the
even integer. -/
theorem bround_two_mul_sub_half (k : ℤ) : bround (2 * (k:ℚ) - 1/2) = 2 * k := by
  have hfl : ⌊2 * (k:ℚ) - 1/2⌋ = 2 * k - 1 := by
    rw [show 2 * (k:ℚ) - 1/2 = -(1/2) + ((2 * k : ℤ) : ℚ) by push_cast; ring,
      Int.floor_add_int]
    norm_num
    omega
  unfold bround
  rw [hfl]
  rw [if_pos (by push_cast; ring)]
  rw [if_neg (by omega)]
  omega

/-- On an exact tie between the nearest integer and the nearest half-step the
two candidates coincide: banker's rounding makes `round(2v)/2` land on the
integer `round(v)` whenever the distances agree. -/
theorem bround_tie_eq (v : ℚ)
    (h : |v - (bround v : ℚ)| = |v - (bround (v * 2) : ℚ) / 2|) :
    (bround (v * 2) : ℚ) / 2 = (bround v : ℚ) := by
  by_contra hne
  have h1 : |v - (bround (v * 2) : ℚ) / 2| ≤ 1/4 := by
    have hq := abs_sub_bround (v * 2)
    rw [show v - (bround (v * 2) : ℚ) / 2 = (v * 2 - bround (v * 2)) / 2 by ring,
      abs_div, abs_of_nonneg (by norm_num : (0:ℚ) ≤ 2)]
    linarith
  have h2 : |v - (bround v : ℚ)| ≤ 1/4 := by rw [h]; exact h1
  have hz : 2 * bround v - bround (v * 2) ≠ 0 := by
    intro h0
    apply hne
    have : (bround (v * 2) : ℚ) = 2 * (bround v : ℚ) := by exact_mod_cast congrArg (fun z : ℤ => (z:ℚ)) (by omega : bround (v * 2) = 2 * bround v)
    rw [this]; ring
  have hz1 : (1:ℚ) ≤ |(2 * bround v - bround (v * 2) : ℤ)| := by
    exact_mod_cast Int.one_le_abs hz
  have hz2 : (1:ℚ) ≤ |2 * (bround v : ℚ) - (bround (v * 2) : ℚ)| := by
    have : ((2 * bround v - bround (v * 2) : ℤ) : ℚ) = 2 * (bround v : ℚ) - (bround (v * 2) : ℚ) := by push_cast; ring
    rw [← this, ← Int.cast_abs]
    exact_mod_cast hz1
  have h3 : |(bround v : ℚ) - (bround (v * 2) : ℚ) / 2| ≤ 1/2 := by
    have := abs_add (↑(bround v) - v) (v - (bround (v * 2) : ℚ) / 2)
    rw [abs_sub_comm] at h2
    calc |(bround v : ℚ) - (bround (v * 2) : ℚ) / 2|
        = |(↑(bround v) - v) + (v - (bround (v * 2) : ℚ) / 2)| := by ring_nf
      _ ≤ |(bround v : ℚ) - v| + |v - (bround (v * 2) : ℚ) / 2| := abs_add _ _
      _ ≤ 1/4 + 1/4 := add_le_add h2 h1
      _ = 1/2 := by norm_num
  have h4 : |(bround v : ℚ) - (bround (v * 2) : ℚ) / 2| = |2 * (bround v : ℚ) - (bround (v * 2) : ℚ)| / 2 := by
    rw [show (bround v : ℚ) - (bround (v * 2) : ℚ) / 2 = (2 * (bround v : ℚ) - (bround (v * 2) : ℚ)) / 2 by ring,
      abs_div, abs_of_nonneg (by norm_num : (0:ℚ) ≤ 2)]
  have h5 : 1/4 ≤ |v - (bround v : ℚ)| := by
    have htri := abs_add ((bround v : ℚ) - v) (v - (bround (v * 2) : ℚ) / 2)
    have : |(bround v : ℚ) - v| = |v - (bround v : ℚ)| := abs_sub_comm _ _
    rw [h4] at h3
    have hgt : 1/2 ≤ |(bround v : ℚ) - (bround (v * 2) : ℚ) / 2| := by
      rw [h4]; linarith
    calc (1:ℚ)/4 = 1/2 - 1/4 := by norm_num
      _ ≤ |(bround v : ℚ) - (bround (v * 2) : ℚ) / 2| - |v - (bround (v * 2) : ℚ) / 2| := by
          have := h ▸ h1
          linarith [hgt, h1]
      _ ≤ |v - (bround v : ℚ)| := by
          have h6 : |(bround v : ℚ) - (bround (v * 2) : ℚ) / 2|
              ≤ |(bround v : ℚ) - v| + |v - (bround (v * 2) : ℚ) / 2| := by
            calc |(bround v : ℚ) - (bround (v * 2) : ℚ) / 2|
                = |((bround v : ℚ) - v) + (v - (bround (v * 2) : ℚ) / 2)| := by ring_nf
              _ ≤ _ := abs_add _ _
          rw [abs_sub_comm (bround v : ℚ) v] at h6
          linarith
  have h7 : |v - (bround v : ℚ)| = 1/4 := le_antisymm h2 h5
  rcases (abs_eq (by norm_num : (0:ℚ) ≤ 1/4)).mp h7 with hv | hv
  · have hv2 : v * 2 = 2 * (bround v : ℚ) + 1/2 := by linarith
    have : bround (v * 2) = 2 * bround v := by rw [hv2]; exact bround_two_mul_add_half _
    exact hz (by omega)
  · have hv2 : v * 2 = 2 * (bround v : ℚ) - 1/2 := by linarith
    have : bround (v * 2) = 2 * bround v := by rw [hv2]; exact bround_two_mul_sub_half _
    exact hz (by omega)

/-! ### Claim C5 -/

/-- C5.  `custom_round` returns "no correction needed" exactly when
`|value| < 0.25`; otherwise it returns the whole integer `round(value)` when
that is strictly closer to the value than the half-step `round(value·2)/2`,
returns the half-step when that is strictly closer, and on an exact tie
returns the whole integer (on ties the two candidates provably coincide); in
particular `custom_round 0.1` is the no-correction label, `custom_round 0.3`
is `0.5` and `custom_round (-1.1)` is `-1`. -/
theorem claim_C5 :
    ∀ value : ℚ,
    (custom_round value = none ↔ |value| < 1/4)
    ∧ (1/4 ≤ |value| →
        (|value - (bround value : ℚ)| < |value - (bround (value * 2) : ℚ) / 2| →
          custom_round value = some ((bround value : ℚ)))
        ∧ (|value - (bround (value * 2) : ℚ) / 2| < |value - (bround value : ℚ)| →
          custom_round value = some ((bround (value * 2) : ℚ) / 2))
        ∧ (|value - (bround value : ℚ)| = |value - (bround (value * 2) : ℚ) / 2| →
          custom_round value = some ((bround value : ℚ))))
    ∧ custom_round (1/10) = none
    ∧ custom_round (3/10) = some (1/2)
    ∧ custom_round (-(11/10)) = some (-1) := by
  have hmain : ∀ value : ℚ,
      (custom_round value = none ↔ |value| < 1/4)
      ∧ (1/4 ≤ |value| →
          (|value - (bround value : ℚ)| < |value - (bround (value * 2) : ℚ) / 2| →
            custom_round value = some ((bround value : ℚ)))
          ∧ (|value - (bround (value * 2) : ℚ) / 2| < |value - (bround value : ℚ)| →
            custom_round value = some ((bround (value * 2) : ℚ) / 2))
          ∧ (|value - (bround value : ℚ)| = |value - (bround (value * 2) : ℚ) / 2| →
            custom_round value = some ((bround value : ℚ)))) := by
    intro value
    constructor
    · by_cases hv : |value| < 1/4
      · simp only [custom_round, if_pos hv]
        exact ⟨fun _ => hv, fun _ => trivial⟩
      · simp only [custom_round, if_neg hv]
        constructor
        · intro hnone
          by_cases hcond : |value - (bround value : ℚ)| < |value - (bround (value * 2) : ℚ) / 2|
          · rw [if_pos hcond] at hnone; exact Option.noConfusion hnone
          · rw [if_neg hcond] at hnone; exact Option.noConfusion hnone
        · intro hlt; exact absurd hlt hv
    · intro hge
      have hv : ¬(|value| < 1/4) := not_lt.mpr hge
      refine ⟨fun hint => ?_, fun hhalf => ?_, fun htie => ?_⟩
      · simp only [custom_round, if_neg hv, if_pos hint]
      · simp only [custom_round, if_neg hv,
          if_neg (not_lt.mpr (le_of_lt hhalf))]
      · have hnot : ¬(|value - (bround value : ℚ)| < |value - (bround (value * 2) : ℚ) / 2|) :=
          not_lt.mpr (le_of_eq htie.symm)
        simp only [custom_round, if_neg hv, if_neg hnot]
        rw [bround_tie_eq value htie]
  have hb1 : bround ((3:ℚ)/10) = 0 := by
    have hfl : ⌊(3:ℚ)/10⌋ = 0 := by norm_num
    unfold bround
    rw [hfl, if_neg (by norm_num), round_eq]
    norm_num
  have hb2 : bround ((3:ℚ)/10 * 2) = 1 := by
    have hfl : ⌊(3:ℚ)/10 * 2⌋ = 0 := by norm_num
    unfold bround
    rw [hfl, if_neg (by norm_num), round_eq]
    norm_num
  have hb3 : bround (-((11:ℚ)/10)) = -1 := by
    have hfl : ⌊-((11:ℚ)/10)⌋ = -2 := by norm_num
    unfold bround
    rw [hfl, if_neg (by norm_num), round_eq]
    norm_num
  have hb4 : bround (-((11:ℚ)/10) * 2) = -2 := by
    have hfl : ⌊-((11:ℚ)/10) * 2⌋ = -3 := by norm_num
    unfold bround
    rw [hfl, if_neg (by norm_num), round_eq]
    norm_num
  intro value
  refine ⟨(hmain value).1, (hmain value).2, ?_, ?_, ?_⟩
  · exact (hmain (1/10)).1.mpr (by rw [abs_of_nonneg (by norm_num)]; norm_num)
  · have h := ((hmain (3/10)).2 (by rw [abs_of_nonneg (by norm_num)]; norm_num)).2.1
    rw [hb1, hb2] at h
    have h2 := h (by push_cast; norm_num [abs_eq_max_neg])
    simpa using h2
  · have h := ((hmain (-(11/10))).2
      (by rw [abs_of_nonpos (by norm_num)]; norm_num)).2.2
    rw [hb3, hb4] at h
    have h2 := h (by push_cast; norm_num [abs_eq_max_neg])
    simpa using h2

/-- Witness for C5: at `0.3` the half-step is strictly closer, and the label
is `0.5`. -/
theorem claim_C5_witness : custom_round (3/10) = some (1/2) :=
  (claim_C5 (3/10)).2.2.2.1

/-! ### List argmin and arange lemmas -/

/-- The argmin fold stays inside the candidate list (or on the accumulator). -/
theorem nearest_foldl_mem (current : ℚ) :
    ∀ (l : List ℚ) (acc : ℚ),
      l.foldl (fun best x => if |x - current| < |best - current| then x else best) acc
        ∈ acc :: l := by
  intro l
  induction l with
  | nil => intro acc; simp
  | cons x xs ih =>
    intro acc
    simp only [List.foldl_cons]
    rcases List.mem_cons.mp (ih (if |x - current| < |acc - current| then x else acc)) with h | h
    · rw [h]
      by_cases hc : |x - current| < |acc - current| <;> simp [hc]
    · simp [List.mem_cons.mpr (Or.inr h)]

/-- The argmin fold result is at least as close to `current` as the
accumulator and as every element of the list. -/
theorem nearest_foldl_min (current : ℚ) :
    ∀ (l : List ℚ) (acc g : ℚ), g ∈ acc :: l →
      |l.foldl (fun best x => if |x - current| < |best - current| then x else best) acc - current|
        ≤ |g - current| := by
  intro l
  induction l with
  | nil =>
    intro acc g hg
    simp only [List.mem_singleton] at hg
    subst hg
    simp
  | cons x xs ih =>
    intro acc g hg
    simp only [List.foldl_cons]
    have hstep1 : |(if |x - current| < |acc - current| then x else acc) - current|
        ≤ |acc - current| := by
      by_cases hc : |x - current| < |acc - current|
      · rw [if_pos hc]; linarith
      · rw [if_neg hc]
    have hstep2 : |(if |x - current| < |acc - current| then x else acc) - current|
        ≤ |x - current| := by
      by_cases hc : |x - current| < |acc - current|
      · rw [if_pos hc]
      · rw [if_neg hc]; linarith [not_lt.mp hc]
    have hhead := ih (if |x - current| < |acc - current| then x else acc)
      (if |x - current| < |acc - current| then x else acc) (List.mem_cons_self _ _)
    rcases List.mem_cons.mp hg with rfl | hg2
    · exact le_trans hhead hstep1
    rcases List.mem_cons.mp hg2 with rfl | hg3
    · exact le_trans hhead hstep2
    · exact ih _ g (List.mem_cons.mpr (Or.inr hg3))

/-- On a nonempty list `nearest_step` returns a member of the list. -/
theorem nearest_step_mem (current : ℚ) (l : List ℚ) (h : l ≠ []) :
    nearest_step current l ∈ l := by
  cases l with
  | nil => exact absurd rfl h
  | cons s rest => exact nearest_foldl_mem current rest s

/-- `nearest_step` minimizes the distance to `current` over the list. -/
theorem nearest_step_min (current : ℚ) (l : List ℚ) (g : ℚ) (hg : g ∈ l) :
    |nearest_step current l - current| ≤ |g - current| := by
  cases l with
  | nil => simp at hg
  | cons s rest => exact nearest_foldl_min current rest s g hg

/-- The half-step grid of a nonempty band is nonempty. -/
theorem arange_nonempty (lower upper : ℚ) (h : lower ≤ upper) :
    arange lower (upper + 1/2) (1/2) ≠ [] := by
  unfold arange
  have hpos : (0:ℚ) < (upper + 1/2 - lower) / (1/2) := by
    have : (upper + 1/2 - lower) / (1/2) = 2*(upper - lower) + 1 := by
      field_simp
      ring
    rw [this]
    linarith
  have hceil : 0 < ⌈(upper + 1/2 - lower) / (1/2)⌉ := Int.ceil_pos.mpr hpos
  intro hcon
  have hlen := congrArg List.length hcon
  rw [List.length_map, List.length_range, List.length_nil] at hlen
  omega

/-- Every grid point lies at or above the band's lower bound, strictly below
`upper + 1/2`, and on the half-unit lattice anchored at the lower bound. -/
theorem arange_mem_bounds (lower upper x : ℚ)
    (hx : x ∈ arange lower (upper + 1/2) (1/2)) :
    lower ≤ x ∧ x < upper + 1/2 ∧ ∃ k : ℕ, x = lower + k * (1/2) := by
  unfold arange at hx
  rcases List.mem_map.mp hx with ⟨k, hk, rfl⟩
  rw [List.mem_range] at hk
  have hkz : (k : ℤ) < ⌈(upper + 1/2 - lower) / (1/2)⌉ := by omega
  have hceil := Int.ceil_lt_add_one ((upper + 1/2 - lower) / (1/2))
  have hkq : (k : ℚ) < (upper + 1/2 - lower) / (1/2) := by
    have h1 : ((k : ℤ) : ℚ) + 1 ≤ (⌈(upper + 1/2 - lower) / (1/2)⌉ : ℚ) := by
      exact_mod_cast hkz
    push_cast at h1
    linarith
  have hdiv : (upper + 1/2 - lower) / (1/2) = 2*(upper - lower) + 1 := by
    field_simp
    ring
  rw [hdiv] at hkq
  have hk0 : (0:ℚ) ≤ (k:ℚ) := Nat.cast_nonneg k
  exact ⟨by linarith, by linarith, ⟨k, rfl⟩⟩

/-- The resolved desired target of a zone is bounded below by the band's lower
bound and above by the band's upper bound plus one half. -/
theorem resolve_zone_target_bounds (current target : ℚ) (p : ℚ × ℚ) :
    target + min p.1 p.2 ≤ resolve_zone_target current target p
    ∧ resolve_zone_target current target p < target + max p.1 p.2 + 1/2 := by
  simp only [resolve_zone_target]
  have hmm : min p.1 p.2 ≤ max p.1 p.2 := min_le_max
  by_cases h1 : target + max p.1 p.2 < current
  · rw [if_pos h1]
    constructor <;> linarith
  · rw [if_neg h1]
    by_cases h2 : current < target + min p.1 p.2
    · rw [if_pos h2]
      constructor <;> linarith
    · rw [if_neg h2]
      have hne := arange_nonempty (target + min p.1 p.2) (target + max p.1 p.2) (by linarith)
      have hmem := nearest_step_mem current _ hne
      have hb := arange_mem_bounds _ _ _ hmem
      exact ⟨hb.1, hb.2.1⟩

/-! ### Cramer correctness -/

/-- A solution produced by `solve3` satisfies the linear system: the linear
solve of Strategy B is exact. -/
theorem solve3_correct {M : Fin 3 → Fin 3 → ℚ} {b x : Fin 3 → ℚ}
    (hdet : det3 M ≠ 0) (hx : solve3 M b = some x) :
    mulVec3 M x = b := by
  unfold solve3 at hx
  rw [if_neg hdet] at hx
  have hx2 : x = fun j => det3 (replace_col M j b) / det3 M := (Option.some_inj.mp hx).symm
  subst hx2
  have key : ∀ i, mulVec3 M (fun j => det3 (replace_col M j b) / det3 M) i * det3 M
      = b i * det3 M := by
    intro i
    have hexp : mulVec3 M (fun j => det3 (replace_col M j b) / det3 M) i * det3 M
        = M i 0 * det3 (replace_col M 0 b) + M i 1 * det3 (replace_col M 1 b)
          + M i 2 * det3 (replace_col M 2 b) := by
      simp only [mulVec3]
      field_simp
      try ring
    rw [hexp]
    fin_cases i <;>
    · simp only [det3, replace_col]
      simp
      try ring
  funext i
  exact mul_right_cancel₀ hdet (key i)

/-- Feeding `solve3` a right-hand side of the form `M·x` returns exactly `x`
(uniqueness of the solution when the determinant is nonzero). -/
theorem solve3_eval {M : Fin 3 → Fin 3 → ℚ} {x : Fin 3 → ℚ} (hdet : det3 M ≠ 0) :
    solve3 M (mulVec3 M x) = some x := by
  unfold solve3
  rw [if_neg hdet]
  congr 1
  funext j
  have hkey : det3 (replace_col M j (mulVec3 M x)) = x j * det3 M := by
    fin_cases j <;>
    · simp only [det3, replace_col, mulVec3]
      simp
      try ring
  rw [hkey, mul_div_assoc, div_self hdet, mul_one]

/-- Evaluation of `arange` when the point count is a known natural number. -/
theorem arange_eval (start stop step : ℚ) (n : ℕ) (h : (stop - start)/step = n) :
    arange start stop step = (List.range n).map (fun k : ℕ => start + (k:ℚ) * step) := by
  unfold arange
  rw [h, Int.ceil_natCast]
  simp

/-- Evaluation of `arange` from a computed ceiling. -/
theorem arange_eval_ceil (start stop step : ℚ) (n : ℕ)
    (h : ⌈(stop - start)/step⌉ = (n:ℤ)) :
    arange start stop step = (List.range n).map (fun k : ℕ => start + (k:ℚ) * step) := by
  unfold arange
  rw [h]
  simp

/-! ### Claim C10 -/

/-- C10.  Strategy B is invariant under swapping any zone's `(min, max)` pair:
the band bounds are computed with `min`/`max` of the stored pair, so reversing
a pair changes neither the corrections nor the predicted final temperatures —
in particular the max-first default range list is read as the normalized
bands. -/
theorem claim_C10 :
    ∀ (coef : ℚ) (initial_temps TARGET_TEMPS : Fin 3 → ℚ)
      (ranges ranges2 : Fin 3 → ℚ × ℚ),
    (∀ i, ranges2 i = ranges i ∨ ranges2 i = ((ranges i).2, (ranges i).1)) →
    calculate_corrections coef initial_temps TARGET_TEMPS ranges2
      = calculate_corrections coef initial_temps TARGET_TEMPS ranges
    ∧ (calculate_corrections coef initial_temps TARGET_TEMPS ranges2).map
        (calculate_temperature_changes coef initial_temps)
      = (calculate_corrections coef initial_temps TARGET_TEMPS ranges).map
        (calculate_temperature_changes coef initial_temps) := by
  intro coef initial_temps TARGET_TEMPS ranges ranges2 h
  have hres : ∀ i, resolve_zone_target (initial_temps i) (TARGET_TEMPS i) (ranges2 i)
      = resolve_zone_target (initial_temps i) (TARGET_TEMPS i) (ranges i) := by
    intro i
    rcases h i with h2 | h2 <;> rw [h2]
    simp [resolve_zone_target, max_comm, min_comm]
  have h1 : calculate_corrections coef initial_temps TARGET_TEMPS ranges2
      = calculate_corrections coef initial_temps TARGET_TEMPS ranges := by
    simp only [calculate_corrections, hres]
  exact ⟨h1, by rw [h1]⟩

/-- Witness for C10: the default range list (written max-first) produces the
same result as its per-zone normalized (min-first) version. -/
theorem claim_C10_witness :
    calculate_corrections (1/2) (vec3 0 0 0) (vec3 0 0 0) DEFAULT_RANGES
      = calculate_corrections (1/2) (vec3 0 0 0) (vec3 0 0 0)
          (vec3 (0, 2) (-1, 1) (-1, 0)) :=
  (claim_C10 (1/2) (vec3 0 0 0) (vec3 0 0 0) (vec3 (0, 2) (-1, 1) (-1, 0)) DEFAULT_RANGES
    (by intro i; fin_cases i <;> exact Or.inr rfl)).1

/-! ### Claim C9 -/

/-- C9, amended.  A range pair entered with max < min is not rejected: no
range-validity error exists in the computation.  `calculate_corrections`
normalizes every pair through `min`/`max` and fails only when the linear
system is singular, i.e. exactly when the influence matrix determinant is
zero. -/
theorem claim_C9 :
    ∀ (coef : ℚ) (initial_temps TARGET_TEMPS : Fin 3 → ℚ)
      (user_ranges : Fin 3 → ℚ × ℚ),
    calculate_corrections coef initial_temps TARGET_TEMPS user_ranges = none
      ↔ det3 (get_influence_matrix coef) = 0 := by
  intro coef initial_temps TARGET_TEMPS user_ranges
  simp only [calculate_corrections, solve3]
  by_cases h : det3 (get_influence_matrix coef) = 0 <;> simp [h]

/-- C9, counterexample.  The claim says a range with max offset < min offset
fails with a `RangeInvalidError`.  The default range list itself stores the B
zone as `(2, 0)` — max entry below min entry — and the computation succeeds on
it, returning corrections; no error is raised. -/
theorem claim_C9_counterexample :
    (DEFAULT_RANGES 0).2 < (DEFAULT_RANGES 0).1
    ∧ calculate_corrections (1/2) (vec3 0 0 0) (vec3 0 0 0) DEFAULT_RANGES
        = some (vec3 0 0 0) := by
  have hB : resolve_zone_target (0:ℚ) 0 (2, 0) = 0 := by
    simp only [resolve_zone_target]
    norm_num
    rw [arange_eval 0 (5/2) (1/2) 5 (by norm_num)]
    norm_num [List.range_succ, nearest_step, List.foldl, abs_eq_max_neg]
  have hC : resolve_zone_target (0:ℚ) 0 (1, -1) = 0 := by
    simp only [resolve_zone_target]
    norm_num
    rw [arange_eval (-1) (3/2) (1/2) 5 (by norm_num)]
    norm_num [List.range_succ, nearest_step, List.foldl, abs_eq_max_neg]
  have hD : resolve_zone_target (0:ℚ) 0 (0, -1) = 0 := by
    simp only [resolve_zone_target]
    norm_num
    rw [arange_eval (-1) (1/2) (1/2) 3 (by norm_num)]
    norm_num [List.range_succ, nearest_step, List.foldl, abs_eq_max_neg]
  have hdet : det3 (get_influence_matrix ((1:ℚ)/2)) ≠ 0 := by
    norm_num [det3, get_influence_matrix, vec3]
  have hrhs : (fun i => resolve_zone_target (vec3 (0:ℚ) 0 0 i) (vec3 (0:ℚ) 0 0 i)
        (DEFAULT_RANGES i) - vec3 (0:ℚ) 0 0 i)
      = mulVec3 (get_influence_matrix ((1:ℚ)/2)) (vec3 0 0 0) := by
    funext i
    fin_cases i <;>
      simp [vec3, DEFAULT_RANGES, mulVec3, get_influence_matrix, hB, hC, hD]
  refine ⟨by norm_num [DEFAULT_RANGES, vec3], ?_⟩
  simp only [calculate_corrections, hrhs, solve3_eval hdet]
  have hq0 : quantize (0:ℚ) = 0 := by
    norm_num [quantize, bround, round_eq]
  simp only [Option.map_some']
  congr 1
  funext i
  fin_cases i <;> simp [vec3, hq0]

/-! ### Claim C3 -/

/-- C3, counterexample.  The claim says that when the current reading lies
inside the band the desired target is the nearest 0.5-unit grid point within
that band.  With `target = 0`, range pair `(0, 0.9)` and current reading `0.9`
(inside the band), the code snaps to `1.0`, which lies outside the band: the
step grid is anchored at the lower bound and `np.arange(lower, upper + 0.5,
0.5)` overshoots the upper bound when the band width is not a multiple of
0.5. -/
theorem claim_C3_counterexample :
    resolve_zone_target (9/10) 0 (0, 9/10) = 1
    ∧ (0:ℚ) + min (0:ℚ) (9/10) ≤ 9/10
    ∧ (9/10:ℚ) ≤ 0 + max (0:ℚ) (9/10)
    ∧ ¬(resolve_zone_target (9/10) 0 (0, 9/10) ≤ 0 + max (0:ℚ) (9/10)) := by
  have h1 : resolve_zone_target ((9:ℚ)/10) 0 (0, 9/10) = 1 := by
    simp only [resolve_zone_target]
    norm_num
    rw [arange_eval_ceil 0 (7/5) (1/2) 3 (by
      rw [show ((7:ℚ)/5 - 0)/(1/2) = 14/5 by norm_num, Int.ceil_eq_iff]; norm_num)]
    norm_num [List.range_succ, nearest_step, List.foldl, abs_eq_max_neg]
  refine ⟨h1, by norm_num, by norm_num, ?_⟩
  rw [h1]
  norm_num

/-- C3, amended.  Per zone: readings above the band clamp to the upper bound
and readings below it clamp to the lower bound; a reading inside the band
snaps to the nearest point of the half-unit grid anchored at the band's lower
bound (first such point on ties) — that grid starts at the lower bound and
stops strictly below `upper + 0.5`, so the snapped target may exceed the
upper bound (by less than 0.5) when the band width is not a multiple of 0.5.
The corrections then solve `InfluenceMatrix · corrections = desired −
current` exactly, and each component is quantized to the 0.5-unit grid. -/
theorem claim_C3 :
    (∀ (current target : ℚ) (p : ℚ × ℚ),
      (target + max p.1 p.2 < current →
        resolve_zone_target current target p = target + max p.1 p.2)
      ∧ (current < target + min p.1 p.2 →
        resolve_zone_target current target p = target + min p.1 p.2)
      ∧ (target + min p.1 p.2 ≤ current → current ≤ target + max p.1 p.2 →
          resolve_zone_target current target p
            ∈ arange (target + min p.1 p.2) (target + max p.1 p.2 + 1/2) (1/2)
          ∧ target + min p.1 p.2 ≤ resolve_zone_target current target p
          ∧ resolve_zone_target current target p < target + max p.1 p.2 + 1/2
          ∧ ∀ g ∈ arange (target + min p.1 p.2) (target + max p.1 p.2 + 1/2) (1/2),
              |resolve_zone_target current target p - current| ≤ |g - current|))
    ∧ (∀ (coef : ℚ) (initial_temps TARGET_TEMPS : Fin 3 → ℚ)
        (user_ranges : Fin 3 → ℚ × ℚ),
        det3 (get_influence_matrix coef) ≠ 0 →
        ∃ x : Fin 3 → ℚ,
          mulVec3 (get_influence_matrix coef) x
            = (fun i => resolve_zone_target (initial_temps i) (TARGET_TEMPS i) (user_ranges i)
                - initial_temps i)
          ∧ calculate_corrections coef initial_temps TARGET_TEMPS user_ranges
            = some (fun i => quantize (x i))) := by
  constructor
  · intro current target p
    refine ⟨fun h1 => ?_, fun h2 => ?_, fun hlo hhi => ?_⟩
    · simp only [resolve_zone_target]
      rw [if_pos h1]
    · have h1 : ¬(target + max p.1 p.2 < current) := by
        have := min_le_max (a := p.1) (b := p.2)
        push_neg
        linarith
      simp only [resolve_zone_target]
      rw [if_neg h1, if_pos h2]
    · have h1 : ¬(target + max p.1 p.2 < current) := not_lt.mpr hhi
      have h2 : ¬(current < target + min p.1 p.2) := not_lt.mpr hlo
      have hres : resolve_zone_target current target p
          = nearest_step current
              (arange (target + min p.1 p.2) (target + max p.1 p.2 + 1/2) (1/2)) := by
        simp only [resolve_zone_target]
        rw [if_neg h1, if_neg h2]
      have hne := arange_nonempty (target + min p.1 p.2) (target + max p.1 p.2)
        (le_trans hlo hhi)
      have hmem := nearest_step_mem current _ hne
      have hb := arange_mem_bounds _ _ _ (hres ▸ hmem)
      refine ⟨hres ▸ hmem, hb.1, hb.2.1, fun g hg => ?_⟩
      rw [hres]
      exact nearest_step_min current _ g hg
  · intro coef initial_temps TARGET_TEMPS user_ranges hdet
    have hsolve : solve3 (get_influence_matrix coef)
        (fun i => resolve_zone_target (initial_temps i) (TARGET_TEMPS i) (user_ranges i)
          - initial_temps i)
        = some (fun j => det3 (replace_col (get_influence_matrix coef) j
            (fun i => resolve_zone_target (initial_temps i) (TARGET_TEMPS i) (user_ranges i)
              - initial_temps i)) / det3 (get_influence_matrix coef)) := by
      unfold solve3
      rw [if_neg hdet]
    refine ⟨_, solve3_correct hdet hsolve, ?_⟩
    simp only [calculate_corrections, hsolve, Option.map_some']

/-- Witness for C3: a reading strictly above the band clamps to the band's
upper bound. -/
theorem claim_C3_witness : resolve_zone_target (3/2) 0 (0, 1) = 0 + max (0:ℚ) 1 :=
  ((claim_C3.1 (3/2) 0 (0, 1)).1) (by norm_num)

/-! ### Claim C4 -/

/-- C4, amended.  The claimed 0.25 slack is too small: quantization errors of
up to 0.25 per component are amplified through the influence-matrix row when
the corrections are pushed back through the coupling.  What holds is: for a
nonnegative coefficient and a solvable system, every zone's final temperature
lies within the zone's resolved band widened below by `0.25·w_i` and above by
`0.5 + 0.25·w_i`, where `w_i` is the absolute row sum of the influence matrix
(`2 + coef⁵` for the edges, `1 + 2·coef` for the center); the extra 0.5 above
covers the snap grid's possible overshoot of the upper bound. -/
theorem claim_C4 :
    ∀ (coef : ℚ) (initial_temps TARGET_TEMPS : Fin 3 → ℚ)
      (user_ranges : Fin 3 → ℚ × ℚ) (corrections : Fin 3 → ℚ),
    0 ≤ coef →
    det3 (get_influence_matrix coef) ≠ 0 →
    calculate_corrections coef initial_temps TARGET_TEMPS user_ranges = some corrections →
    ∀ i : Fin 3,
      TARGET_TEMPS i + min (user_ranges i).1 (user_ranges i).2
          - (1/4) * rowWeight coef i
        ≤ calculate_temperature_changes coef initial_temps corrections i
      ∧ calculate_temperature_changes coef initial_temps corrections i
        < TARGET_TEMPS i + max (user_ranges i).1 (user_ranges i).2 + 1/2
          + (1/4) * rowWeight coef i := by
  intro coef it tt ur corr hc hdet hcc
  simp only [calculate_corrections] at hcc
  rcases Option.map_eq_some'.mp hcc with ⟨x, hx, hf⟩
  have hMx := solve3_correct hdet hx
  have hcorr : corr = fun i => quantize (x i) := hf.symm
  subst hcorr
  have habs : ∀ j, -(1/4) ≤ quantize (x j) - x j ∧ quantize (x j) - x j ≤ 1/4 :=
    fun j => abs_le.mp (abs_quantize_sub (x j))
  have hc5 : (0:ℚ) ≤ coef^5 := pow_nonneg hc 5
  intro i
  have h1 := congrFun hMx i
  have htb := resolve_zone_target_bounds (it i) (tt i) (ur i)
  obtain ⟨hA0, hA1⟩ := habs 0
  obtain ⟨hB0, hB1⟩ := habs 1
  obtain ⟨hC0, hC1⟩ := habs 2
  fin_cases i
  · simp only [calculate_temperature_changes, mulVec3, get_influence_matrix, vec3,
      rowWeight] at h1 ⊢
    have hw2u : coef^5 * (quantize (x 2) - x 2) ≤ coef^5 * (1/4) :=
      mul_le_mul_of_nonneg_left hC1 hc5
    have hw2l : coef^5 * (-(1/4)) ≤ coef^5 * (quantize (x 2) - x 2) :=
      mul_le_mul_of_nonneg_left hC0 hc5
    constructor <;> linarith [h1, htb.1, htb.2, hA0, hA1, hB0, hB1, hw2l, hw2u]
  · simp only [calculate_temperature_changes, mulVec3, get_influence_matrix, vec3,
      rowWeight] at h1 ⊢
    have hw0u : coef * (quantize (x 0) - x 0) ≤ coef * (1/4) :=
      mul_le_mul_of_nonneg_left hA1 hc
    have hw0l : coef * (-(1/4)) ≤ coef * (quantize (x 0) - x 0) :=
      mul_le_mul_of_nonneg_left hA0 hc
    have hw2u : coef * (quantize (x 2) - x 2) ≤ coef * (1/4) :=
      mul_le_mul_of_nonneg_left hC1 hc
    have hw2l : coef * (-(1/4)) ≤ coef * (quantize (x 2) - x 2) :=
      mul_le_mul_of_nonneg_left hC0 hc
    constructor <;> linarith [h1, htb.1, htb.2, hB0, hB1, hw0l, hw0u, hw2l, hw2u]
  · simp only [calculate_temperature_changes, mulVec3, get_influence_matrix, vec3,
      rowWeight] at h1 ⊢
    have hw0u : coef^5 * (quantize (x 0) - x 0) ≤ coef^5 * (1/4) :=
      mul_le_mul_of_nonneg_left hA1 hc5
    have hw0l : coef^5 * (-(1/4)) ≤ coef^5 * (quantize (x 0) - x 0) :=
      mul_le_mul_of_nonneg_left hA0 hc5
    constructor <;> linarith [h1, htb.1, htb.2, hB0, hB1, hC0, hC1, hw0l, hw0u]

/-- Strategy B on all-zero temperatures with degenerate zero bands returns the
zero correction vector (shared evaluation helper). -/
theorem corrections_at_zero :
    calculate_corrections (1/2) (vec3 0 0 0) (vec3 0 0 0) (vec3 (0, 0) (0, 0) (0, 0))
      = some (vec3 0 0 0) := by
  have hres : resolve_zone_target (0:ℚ) 0 (0 : ℚ × ℚ) = 0 := by
    simp only [resolve_zone_target]
    norm_num
    rw [arange_eval 0 (1/2) (1/2) 1 (by norm_num)]
    norm_num [List.range_succ, nearest_step, List.foldl]
  have hdet : det3 (get_influence_matrix ((1:ℚ)/2)) ≠ 0 := by
    norm_num [det3, get_influence_matrix, vec3]
  have hrhs : (fun i => resolve_zone_target (vec3 (0:ℚ) 0 0 i) (vec3 (0:ℚ) 0 0 i)
        (vec3 ((0:ℚ), (0:ℚ)) ((0:ℚ), (0:ℚ)) ((0:ℚ), (0:ℚ)) i) - vec3 (0:ℚ) 0 0 i)
      = mulVec3 (get_influence_matrix ((1:ℚ)/2)) (vec3 0 0 0) := by
    funext i
    fin_cases i <;> simp [vec3, mulVec3, get_influence_matrix, hres]
  have hq0 : quantize (0:ℚ) = 0 := by
    norm_num [quantize, bround, round_eq]
  simp only [calculate_corrections, hrhs, solve3_eval hdet, Option.map_some']
  congr 1
  funext i
  fin_cases i <;> simp [vec3, hq0]

/-- Witness for C4 (amended): at coefficient `1/2`, zero temperatures and
degenerate zero bands, the edge zone B's final temperature obeys the widened
two-sided bound. -/
theorem claim_C4_witness :
    vec3 (0:ℚ) 0 0 0 + min (vec3 ((0:ℚ), (0:ℚ)) ((0:ℚ), (0:ℚ)) ((0:ℚ), (0:ℚ)) 0).1
        (vec3 ((0:ℚ), (0:ℚ)) ((0:ℚ), (0:ℚ)) ((0:ℚ), (0:ℚ)) 0).2
        - (1/4) * rowWeight (1/2) 0
      ≤ calculate_temperature_changes (1/2) (vec3 0 0 0) (vec3 0 0 0) 0
    ∧ calculate_temperature_changes (1/2) (vec3 0 0 0) (vec3 0 0 0) 0
      < vec3 (0:ℚ) 0 0 0 + max (vec3 ((0:ℚ), (0:ℚ)) ((0:ℚ), (0:ℚ)) ((0:ℚ), (0:ℚ)) 0).1
          (vec3 ((0:ℚ), (0:ℚ)) ((0:ℚ), (0:ℚ)) ((0:ℚ), (0:ℚ)) 0).2 + 1/2
          + (1/4) * rowWeight (1/2) 0 :=
  claim_C4 (1/2) (vec3 0 0 0) (vec3 0 0 0) (vec3 (0, 0) (0, 0) (0, 0)) (vec3 0 0 0)
    (by norm_num)
    (by norm_num [det3, get_influence_matrix, vec3])
    corrections_at_zero
    0

/-- C4, counterexample.  The claim as stated — final temperature within
`[target+min−0.25, target+max+0.25]` — fails: with `coef = 1/2`, current
temperatures all 0, targets `(0.4, 0.3, 0.20625)` and degenerate zero bands,
the exact corrections `(0.2, 0.2, 0)` all quantize to 0, so the final
temperatures remain 0 while zone B's claimed interval is `[0.15, 0.65]`. -/
theorem claim_C4_counterexample :
    calculate_corrections (1/2) (vec3 0 0 0) (vec3 (2/5) (3/10) (33/160))
        (vec3 (0, 0) (0, 0) (0, 0)) = some (vec3 0 0 0)
    ∧ calculate_temperature_changes (1/2) (vec3 0 0 0) (vec3 0 0 0) 0 = 0
    ∧ ¬(vec3 ((2:ℚ)/5) (3/10) (33/160) 0
          + min (vec3 ((0:ℚ), (0:ℚ)) ((0:ℚ), (0:ℚ)) ((0:ℚ), (0:ℚ)) 0).1
            (vec3 ((0:ℚ), (0:ℚ)) ((0:ℚ), (0:ℚ)) ((0:ℚ), (0:ℚ)) 0).2 - 1/4
        ≤ calculate_temperature_changes (1/2) (vec3 0 0 0) (vec3 0 0 0) 0) := by
  have hres : ∀ t : ℚ, 0 < t → resolve_zone_target 0 t (0 : ℚ × ℚ) = t := by
    intro t ht
    simp only [resolve_zone_target]
    rw [if_neg (by push_neg; norm_num; linarith), if_pos (by norm_num; linarith)]
    norm_num
  have hres1 : resolve_zone_target (0:ℚ) (2/5) (0 : ℚ × ℚ) = 2/5 :=
    hres _ (by norm_num)
  have hres2 : resolve_zone_target (0:ℚ) (3/10) (0 : ℚ × ℚ) = 3/10 :=
    hres _ (by norm_num)
  have hres3 : resolve_zone_target (0:ℚ) (33/160) (0 : ℚ × ℚ) = 33/160 :=
    hres _ (by norm_num)
  have hdet : det3 (get_influence_matrix ((1:ℚ)/2)) ≠ 0 := by
    norm_num [det3, get_influence_matrix, vec3]
  have hrhs : (fun i => resolve_zone_target (vec3 (0:ℚ) 0 0 i)
        (vec3 ((2:ℚ)/5) (3/10) (33/160) i)
        (vec3 ((0:ℚ), (0:ℚ)) ((0:ℚ), (0:ℚ)) ((0:ℚ), (0:ℚ)) i) - vec3 (0:ℚ) 0 0 i)
      = mulVec3 (get_influence_matrix ((1:ℚ)/2)) (vec3 (1/5) (1/5) 0) := by
    funext i
    fin_cases i <;>
      (simp [vec3, mulVec3, get_influence_matrix, hres1, hres2, hres3]; norm_num)
  have hq0 : quantize (0:ℚ) = 0 := by
    norm_num [quantize, bround, round_eq]
  have hq5 : quantize ((1:ℚ)/5) = 0 := by
    norm_num [quantize, bround, round_eq]
  have hfin : calculate_temperature_changes ((1:ℚ)/2) (vec3 0 0 0) (vec3 0 0 0) 0 = 0 := by
    norm_num [calculate_temperature_changes, mulVec3, get_influence_matrix, vec3]
  refine ⟨?_, hfin, ?_⟩
  · simp only [calculate_corrections, hrhs, solve3_eval hdet, Option.map_some']
    congr 1
    funext i
    fin_cases i
    · exact hq5
    · exact hq5
    · exact hq0
  · rw [hfin]
    norm_num [vec3]

end TempCalc
